import Mathlib

/-!
# Verification of the adjacent-duplicate comment cleaner

A shallow embedding of `src/index.js` (a VK board duplicate-comment cleaner)
together with proofs of the specification's testable properties.

Strings are modelled as `List Char` where regex-level reasoning is needed
(the text normalizer) and as `String` where only equality and lexicographic
order matter (attachment signatures).
-/

set_option maxHeartbeats 1600000

namespace VkBoardClean

/-! ## Character classes used by the normalizer's regexes

`isWS` is the ECMAScript `\s` class (WhiteSpace ∪ LineTerminator):
`[\t\n\v\f\r    -     　﻿]`.
`isST` is the class `[ \t]` of the run-collapsing regex.
`isZW` is the zero-width class `[​‌‍﻿]` removed by the
normalizer. -/

def isWS (c : Char) : Bool :=
  let n := c.toNat
  n == 9 || n == 10 || n == 11 || n == 12 || n == 13 || n == 32 ||
  n == 160 || n == 5760 || (8192 ≤ n && n ≤ 8202) || n == 8232 ||
  n == 8233 || n == 8239 || n == 8287 || n == 12288 || n == 65279

def isST (c : Char) : Bool :=
  c == ' ' || c == '\t'

def isZW (c : Char) : Bool :=
  let n := c.toNat
  n == 8203 || n == 8204 || n == 8205 || n == 65279

/-- The non-breaking space ` `. -/
def nbsp : Char := Char.ofNat 160

/-! ## Text normalizer (`normalizeText`, src/index.js lines 89–97)

Each stage below is one chained `.replace`/`.toLowerCase`/`.trim` of the
source, in source order. -/

/-- `.replace(/ /g, ' ')`: every non-breaking space becomes a plain
space. -/
def nbspToSpace (l : List Char) : List Char :=
  l.map fun c => if c = nbsp then ' ' else c

/-- `.toLowerCase()`, modelled at the granularity of the simple ASCII case
mapping (code points 65–90 map to 97–122; all other characters are kept).
The full Unicode case table of JavaScript is not reproduced. -/
def toLowerJS (c : Char) : Char :=
  if 65 ≤ c.toNat ∧ c.toNat ≤ 90 then Char.ofNat (c.toNat + 32) else c

def lowerAll (l : List Char) : List Char :=
  l.map toLowerJS

/-- `.replace(/[​‌‍﻿]/g, '')`: zero-width characters are
deleted. -/
def stripZW (l : List Char) : List Char :=
  l.filter fun c => !isZW c

/-- `.replace(/[ \t]+/g, ' ')`: every maximal run of spaces/tabs becomes a
single space.  The greedy global regex consumes each maximal `[ \t]` run
whole, so the translation replaces the run's head by `' '` and drops the rest
of the run. -/
def collapseST : List Char → List Char
  | [] => []
  | c :: cs =>
    if isST c then ' ' :: collapseST (cs.dropWhile isST)
    else c :: collapseST cs
termination_by l => l.length
decreasing_by
  · simp only [List.length_cons]
    exact Nat.lt_succ_of_le (List.dropWhile_sublist _).length_le
  · simp

/-- `.replace(/\s*\n\s*/g, '\n')`: with greedy backtracking the global regex
matches exactly the maximal `\s` runs that contain at least one `'\n'` and
rewrites each such run to a single `'\n'`; whitespace runs without a newline
are left alone. -/
def collapseNL : List Char → List Char
  | [] => []
  | c :: cs =>
    if isWS c then
      (if (c :: cs.takeWhile isWS).contains '\n' then ['\n']
       else c :: cs.takeWhile isWS) ++ collapseNL (cs.dropWhile isWS)
    else c :: collapseNL cs
termination_by l => l.length
decreasing_by
  · simp only [List.length_cons]
    exact Nat.lt_succ_of_le (List.dropWhile_sublist _).length_le
  · simp

/-- Right half of `.trim()`: drop trailing `\s` characters. -/
def trimEnd (l : List Char) : List Char :=
  (l.reverse.dropWhile isWS).reverse

/-- `.trim()`: drop leading and trailing whitespace. -/
def trimWS (l : List Char) : List Char :=
  trimEnd (l.dropWhile isWS)

/-- The normalization pipeline applied to an actual string, stages in the
exact order of the source chain. -/
def normCore (l : List Char) : List Char :=
  trimWS (collapseNL (collapseST (stripZW (lowerAll (nbspToSpace l)))))

/-- `(s || '')` for a possibly `null`/`undefined` string argument: absent
input is replaced by the empty string (an empty string is falsy, and
`'' || ''` is `''` as well, so mapping `some []` to `[]` is exact). -/
def jsOrEmpty : Option (List Char) → List Char
  | none => []
  | some l => l

/-- `normalizeText(s)` (src/index.js lines 89–97). -/
def normalizeText (s : Option (List Char)) : List Char :=
  normCore (jsOrEmpty s)

/-! Normal forms of the normalizer.  A normalized string satisfies the
character-wise and adjacency conditions below, and every string satisfying
them is a fixed point of the pipeline — which yields idempotence. -/

/-- Characters that survive a normalization pass: lower-case-stable, not a
non-breaking space, not zero-width, not a tab. -/
def okChar (c : Char) : Prop :=
  toLowerJS c = c ∧ c ≠ nbsp ∧ isZW c = false ∧ c ≠ '\t'

/-- Adjacent pairs that survive a normalization pass: no two adjacent
space/tab characters, and no newline adjacent to any whitespace. -/
def okPair (a b : Char) : Prop :=
  ¬(isST a = true ∧ isST b = true) ∧
  ¬(a = '\n' ∧ isWS b = true) ∧
  ¬(isWS a = true ∧ b = '\n')

/-- The normal form: good characters, good adjacent pairs, and no leading or
trailing whitespace. -/
def NF (l : List Char) : Prop :=
  (∀ c ∈ l, okChar c) ∧ l.Chain' okPair ∧
  (∀ c, l.head? = some c → isWS c = false) ∧
  (∀ c, l.getLast? = some c → isWS c = false)

/-! ## Attachment signature (`attsHash`, src/index.js lines 103–124)

An array element `a` may be any value (`a && a.type`), so the list holds
`Option AttObj`.  `a[t]` — the payload object stored under the type key — is
modelled by the `payload` field (`a[t] || {}` makes the absent payload an
empty object, i.e. all fields absent). -/

structure AttPayload where
  owner_id : Option Int
  id : Option Int
  sticker_id : Option Int
  url : Option String
  link : Option String
deriving DecidableEq, Repr

structure AttObj where
  /-- `a.type`; `none` models `undefined`, and the empty string is falsy in
  the `if (!t)` test. -/
  type : Option String
  /-- `a[t]` for the type key `t`; `none` models a missing payload. -/
  payload : Option AttPayload
deriving DecidableEq, Repr

/-- The empty payload `{}` used by `a[t] || {}`. -/
def emptyPayload : AttPayload := ⟨none, none, none, none, none⟩

/-- `x || y` for strings: an absent or empty string falls through. -/
def jsOrStr (x : Option String) (y : String) : String :=
  match x with
  | none => y
  | some s => if s = "" then y else s

/-- The tuple `${t}:${o}:${id}:${stickerId}:${url}` built for one array
element (src/index.js lines 107–118). -/
def attTuple (a : Option AttObj) : String :=
  match a with
  | none => "unknown:"
  | some att =>
    match att.type with
    | none => "unknown:"
    | some t =>
      if t = "" then "unknown:"
      else
        let obj := att.payload.getD emptyPayload
        let o := match obj.owner_id with | some n => toString n | none => ""
        let i := match obj.id with | some n => toString n | none => ""
        let st := match obj.sticker_id with
                  | some n => "st:" ++ toString n
                  | none => ""
        let url := jsOrStr obj.url (jsOrStr obj.link "")
        t ++ ":" ++ o ++ ":" ++ i ++ ":" ++ st ++ ":" ++ url

/-- `attsHash(atts, ignore)` (src/index.js lines 103–124): empty signature
when ignoring attachments or when the list is empty, otherwise the sorted
tuples joined with `"|"`.  JavaScript's default `Array.prototype.sort`
compares the tuple strings lexicographically; `List.insertionSort` with the
lexicographic order on `String` models it (the `try`/`catch` cannot fire in
the model because every tuple construction is total). -/
def attsHash (atts : List (Option AttObj)) (ignore : Bool) : String :=
  if ignore || atts.length == 0 then ""
  else String.intercalate "|" (List.insertionSort (· ≤ ·) (atts.map attTuple))

/-- The `atts = []` default parameter: a comment with no `attachments` field
passes `undefined`, which the default turns into `[]`. -/
def attsHashOpt (atts : Option (List (Option AttObj))) (ignore : Bool) : String :=
  attsHash (atts.getD []) ignore

/-! ## Thread entries and the duplicate planner
(`planDeletionsAsc`, src/index.js lines 192–211) -/

structure Entry where
  id : Int
  from_id : Int
  text : Option (List Char)
  attachments : Option (List (Option AttObj))
deriving DecidableEq, Repr

/-- The signature triple `(sameAuthor, sameText, sameAtts)` compares
(src/index.js lines 199–201). -/
def sigOf (ig : Bool) (e : Entry) : Int × List Char × String :=
  (e.from_id, normalizeText e.text, attsHashOpt e.attachments ig)

/-- `sameAuthor && sameText && sameAtts` (src/index.js lines 199–203). -/
def eqSig (ig : Bool) (a b : Entry) : Bool :=
  (a.from_id == b.from_id) &&
  (normalizeText a.text == normalizeText b.text) &&
  (attsHashOpt a.attachments ig == attsHashOpt b.attachments ig)

/-- The planner loop after the kept reference is set: a matching current
entry is pushed onto the plan and the kept reference stays; a non-matching
entry becomes the new kept reference (src/index.js lines 196–209). -/
def planAux (ig : Bool) (prevKept : Entry) : List Entry → List Int
  | [] => []
  | cur :: rest =>
    if eqSig ig prevKept cur then cur.id :: planAux ig prevKept rest
    else planAux ig cur rest

/-- `planDeletionsAsc` on the already-fetched entry sequence: `prevKept`
starts as `null`, so the first yielded entry only seeds the kept reference
(src/index.js lines 192–211). -/
def planDeletionsAsc (ig : Bool) : List Entry → List Int
  | [] => []
  | first :: rest => planAux ig first rest

/-- The kept reference after feeding a list of entries to the planner loop. -/
def keptAfter (ig : Bool) (k : Entry) (l : List Entry) : Entry :=
  l.foldl (fun k' c => if eqSig ig k' c then k' else c) k

/-! ## Resilient call wrapper (`withRetries`, src/index.js lines 138–160) -/

/-- A VK API error as inspected by the wrapper: `e && e.code` and
`e.message || e.error_msg || String(e)`. -/
structure VkError where
  code : Option Int
  message : String
deriving DecidableEq, Repr

/-- `code === 6 || code === 10 || (code >= 500 && code < 600)`
(src/index.js line 151); comparisons against an absent code are false. -/
def retriable (code : Option Int) : Bool :=
  match code with
  | some c => c == 6 || c == 10 || (500 ≤ c && c < 600)
  | none => false

/-- The wrapped failure thrown at src/index.js line 154.  The source
interpolates code, message and attempt count into the `Error` message string;
the structure carries the same three data. -/
structure WrappedFailure where
  code : Option Int
  message : String
  attempt : Nat
deriving DecidableEq, Repr

/-- The retry loop of `withRetries`.  The operation may behave differently on
every invocation, so it is a function of the attempt index; `attempt` is the
loop counter (0 on the first call).  The loop retries exactly when the error
is retriable and `attempt < maxRetries`; otherwise it throws the wrapped
failure carrying the current attempt counter (src/index.js lines 142–159;
the backoff pause has no observable effect on the result).  `budget` is the
remaining retry allowance `maxRetries - attempt`, carried separately so the
recursion is structural; when it is zero the guard `attempt >= maxRetries`
has been reached and the error is thrown whether or not it is retriable —
exactly the source's `!retriable || attempt >= maxRetries` test. -/
def withRetriesAux (fn : Nat → Except VkError α) :
    (budget attempt : Nat) → Except WrappedFailure α
  | 0, attempt =>
    match fn attempt with
    | .ok v => .ok v
    | .error e => .error ⟨e.code, e.message, attempt⟩
  | budget + 1, attempt =>
    match fn attempt with
    | .ok v => .ok v
    | .error e =>
      if retriable e.code then withRetriesAux fn budget (attempt + 1)
      else .error ⟨e.code, e.message, attempt⟩

/-- `withRetries(fn, cfg)` with the attempt counter starting at 0
(src/index.js line 142). -/
def withRetries (fn : Nat → Except VkError α) (maxRetries : Nat) :
    Except WrappedFailure α :=
  withRetriesAux fn maxRetries 0

/-- Number of times the loop invokes the operation, with the same
`budget`/`attempt` split as `withRetriesAux`. -/
def withRetriesCalls (fn : Nat → Except VkError α) :
    (budget attempt : Nat) → Nat
  | 0, _ => 1
  | budget + 1, attempt =>
    match fn attempt with
    | .ok _ => 1
    | .error e =>
      if retriable e.code then 1 + withRetriesCalls fn budget (attempt + 1)
      else 1

/-! ## Bounded executor (`pMap`, src/index.js lines 214–237)

`pMap` multiplexes up to `concurrency` in-flight mapper promises on one
logical thread.  The model is a state machine whose only nondeterminism is
the order in which in-flight promises settle; a run is driven by a schedule,
a list of choices, each choice picking one in-flight task to complete.  The
mapper is a per-item outcome `worker : Nat → Except ε β` (the outcome of
`mapper(items[j], j)`). -/

structure PmapState (β ε : Type) where
  /-- The cursor `i`: items `0 … nextIdx-1` have been launched. -/
  nextIdx : Nat
  /-- Indices of the in-flight tasks (`active` is its length). -/
  active : List Nat
  /-- The `resolved` counter. -/
  resolvedCount : Nat
  /-- The `results` array; a slot is filled by `.then` on success only. -/
  results : List (Option β)
  /-- Indices whose `.finally` has run, in completion order. -/
  done : List Nat
  /-- The state of the promise returned by `pMap`: `none` while pending;
  a first `resolve`/`reject` wins and later calls are no-ops. -/
  settled : Option (Except ε (List (Option β)))
deriving Repr

/-- Settling a promise: only the first `resolve`/`reject` takes effect. -/
def settle (s : Option (Except ε (List (Option β))))
    (v : Except ε (List (Option β))) : Option (Except ε (List (Option β))) :=
  match s with
  | some x => some x
  | none => some v

/-- The launch loop
`while (active < concurrency && i < items.length) { … }`
(src/index.js lines 222–233): start pending items while below the ceiling.
`conc` is already clamped.  `fuel` bounds the iteration count so the
recursion is structural; callers pass `n - s.nextIdx`, which is exact: the
loop guard requires `s.nextIdx < n`, so a zero fuel means the guard is
already false. -/
def launchLoop (n conc : Nat) : Nat → PmapState β ε → PmapState β ε
  | 0, s => s
  | fuel + 1, s =>
    if s.active.length < conc ∧ s.nextIdx < n then
      launchLoop n conc fuel
        { s with nextIdx := s.nextIdx + 1, active := s.active ++ [s.nextIdx] }
    else s

/-- One call of `next()` (src/index.js lines 220–234): resolve if every item
has completed, otherwise launch pending items up to the ceiling. -/
def nextStep (n conc : Nat) (s : PmapState β ε) : PmapState β ε :=
  if s.resolvedCount = n then { s with settled := settle s.settled (.ok s.results) }
  else launchLoop n conc (n - s.nextIdx) s

/-- Completion of one in-flight promise, chosen by the schedule entry `c`:
`.then` records the result on success, `.catch(reject)` rejects the outer
promise on failure, `.finally` decrements `active`, increments `resolved`
and calls `next()` (src/index.js lines 225–232).  With no task in flight
nothing can happen. -/
def completeStep (n conc : Nat) (worker : Nat → Except ε β)
    (s : PmapState β ε) (c : Nat) : PmapState β ε :=
  if hlen : s.active.length = 0 then s
  else
    let j := s.active.get ⟨c % s.active.length, Nat.mod_lt _ (Nat.pos_of_ne_zero hlen)⟩
    let s1 := { s with active := s.active.eraseIdx (c % s.active.length) }
    let s2 := match worker j with
      | .ok v => { s1 with results := s1.results.set j v }
      | .error e => { s1 with settled := settle s1.settled (.error e) }
    nextStep n conc
      { s2 with resolvedCount := s2.resolvedCount + 1, done := s2.done ++ [j] }

/-- `concurrency = Math.max(1, Number(concurrency) || 1)`
(src/index.js line 215). -/
def clampConc (conc : Nat) : Nat := max 1 conc

/-- The state right after `pMap` is entered: counters zeroed, the result
array allocated, then the initial `next()` call (src/index.js line 235). -/
def initState (n conc : Nat) : PmapState β ε :=
  nextStep n (clampConc conc)
    ⟨0, [], 0, List.replicate n none, [], none⟩

/-- Running `pMap` over `n` items under a completion schedule. -/
def pMapRun (n conc : Nat) (worker : Nat → Except ε β) (σ : List Nat) :
    PmapState β ε :=
  σ.foldl (completeStep n (clampConc conc) worker) (initState n conc)

/-! ## Deletion orchestrator (`deleteBatch`, src/index.js lines 242–270)

The mapper passed to `pMap` deletes one comment through `withRetries` and
catches every failure, logging it (line 259) and moving on, so its promise
always fulfills; `ε := Empty` records that it can never reject.  The
success flag and the optional log line are the per-item observable
outcome. -/

/-- Behaviour of one `deleteComment` mapper invocation for item `j`:
`del cid attempt` is the remote delete outcome for comment `cid` on a given
attempt. -/
def delWorker (ids : List Int) (del : Int → Nat → Except VkError Unit)
    (maxRetries : Nat) (j : Nat) :
    Except Empty (Bool × Option (Int × WrappedFailure)) :=
  let cid := ids.getD j 0
  match withRetries (del cid) maxRetries with
  | .ok _ => .ok (true, none)
  | .error w => .ok (false, some (cid, w))

/-- Final state of `deleteBatch`'s `pMap` call under a schedule. -/
def deleteBatchRun (ids : List Int) (del : Int → Nat → Except VkError Unit)
    (maxRetries conc : Nat) (σ : List Nat) :
    PmapState (Bool × Option (Int × WrappedFailure)) Empty :=
  pMapRun ids.length conc (delWorker ids del maxRetries) σ

/-- The `ok` counter returned by `deleteBatch`: it is incremented once per
completed item whose deletion succeeded (src/index.js line 254), so in any
state it counts the completed successes. -/
def okCount (worker : Nat → Except Empty (Bool × Option (Int × WrappedFailure)))
    (s : PmapState (Bool × Option (Int × WrappedFailure)) Empty) : Nat :=
  (s.done.filter fun j =>
    match worker j with
    | .ok (b, _) => b).length

/-- The `console.error('delete failed', …)` lines (src/index.js line 259),
in completion order. -/
def failLogs (worker : Nat → Except Empty (Bool × Option (Int × WrappedFailure)))
    (s : PmapState (Bool × Option (Int × WrappedFailure)) Empty) :
    List (Int × WrappedFailure) :=
  s.done.filterMap fun j =>
    match worker j with
    | .ok (_, log) => log

/-! ## Dry-run reporting (`main`, src/index.js lines 321–332) -/

structure DryRunReport where
  total : Nat
  head : List Int
  tail : List Int
deriving DecidableEq, Repr

/-- The dry-run report: `plan.length`, and — when the plan is non-empty —
`plan.slice(0, Math.min(planPreview, plan.length))` and
`plan.slice(Math.max(plan.length - planPreview, 0))` (src/index.js lines
322–327; `Nat` subtraction is the clamped `Math.max(… , 0)`). -/
def dryRunReport (plan : List Int) (preview : Nat) : DryRunReport :=
  if plan.length = 0 then ⟨plan.length, [], []⟩
  else
    ⟨plan.length,
     plan.take (min preview plan.length),
     plan.drop (plan.length - preview)⟩

/-- The comment ids `main` hands to `deleteBatch`: the dry-run branch exits
at line 331 before the `deleteBatch` call at line 339, and an empty plan
returns at line 336, so no deletion call is issued in either case. -/
def mainDeleteCalls (dryRun : Bool) (plan : List Int) : List Int :=
  if dryRun then [] else plan

/-! ## Concrete inputs used by witnesses and counterexamples -/

/-- Two entries by the same author with no text and no attachments: a
signature-equal adjacent pair. -/
def wEntry1 : Entry := ⟨1, 7, none, none⟩

def wEntry2 : Entry := ⟨2, 7, none, none⟩

def wEntry3 : Entry := ⟨3, 9, none, none⟩

/-- A photo attachment `photo:1:2::` and a document attachment
`doc:3:4::`. -/
def wAttPhoto : Option AttObj := some ⟨some "photo", some ⟨some 1, some 2, none, none, none⟩⟩

def wAttDoc : Option AttObj := some ⟨some "doc", some ⟨some 3, some 4, none, none, none⟩⟩

/-- An operation that always fails with a fatal (non-retriable) code. -/
def wFatalFn : Nat → Except VkError Unit := fun _ => .error ⟨some 100, "perm"⟩

/-- An operation that always fails with the rate-limit code 6. -/
def wRateFn : Nat → Except VkError Unit := fun _ => .error ⟨some 6, "rate"⟩

/-- A worker that fails on item 0 and succeeds on every other item. -/
def wFailWorker : Nat → Except String Bool :=
  fun j => if j = 0 then .error "boom" else .ok true

/-- A worker that succeeds on every item. -/
def wOkWorker : Nat → Except String Bool := fun _ => .ok true

/-- The reachable-state invariant of the `pMap` machine with clamped
concurrency `conc`:
counters are consistent, the launched items are exactly `0 … nextIdx-1`
split between completed and in-flight, the in-flight count respects the
ceiling and is saturated unless every item has been launched, a fulfilled
promise means every item completed, a promise is settled once all items
completed, and any completed failure has already rejected the promise. -/
def PmapInv (n conc : Nat) (worker : Nat → Except ε β) (s : PmapState β ε) : Prop :=
  s.nextIdx ≤ n ∧
  s.resolvedCount + s.active.length = s.nextIdx ∧
  (s.done ++ s.active).Perm (List.range s.nextIdx) ∧
  s.active.length ≤ conc ∧
  (s.active.length = conc ∨ s.nextIdx = n) ∧
  (∀ r, s.settled = some (Except.ok r) → s.resolvedCount = n) ∧
  (s.resolvedCount = n → s.settled ≠ none) ∧
  ((∀ j ∈ s.done, ∃ v, worker j = Except.ok v) ∨
    (∃ e, s.settled = some (Except.error e)))

/-- Remote delete behaviour for Scenario D: comment id 12 always fails
fatally, every other id succeeds at once. -/
def wDelD : Int → Nat → Except VkError Unit :=
  fun cid _ => if cid = 12 then .error ⟨some 100, "perm"⟩ else .ok ()

/-! # Theorems -/

/-! ## Duplicate planner: generic lemmas -/

theorem eqSig_eq_true_iff (ig : Bool) (a b : Entry) :
    eqSig ig a b = true ↔ sigOf ig a = sigOf ig b := by
  simp [eqSig, sigOf, Prod.ext_iff, and_assoc]

theorem planAux_sublist (ig : Bool) :
    ∀ (l : List Entry) (k : Entry), (planAux ig k l).Sublist (l.map Entry.id) := by
  intro l
  induction l with
  | nil => intro k; simp [planAux]
  | cons c rest ih =>
    intro k
    by_cases h : eqSig ig k c = true
    · simpa [planAux, h] using (ih k).cons₂ c.id
    · simpa [planAux, h] using (ih c).cons c.id

theorem keptAfter_nil (ig : Bool) (k : Entry) : keptAfter ig k [] = k := rfl

theorem keptAfter_cons (ig : Bool) (k c : Entry) (l : List Entry) :
    keptAfter ig k (c :: l) =
      keptAfter ig (if eqSig ig k c then k else c) l := rfl

theorem planAux_append (ig : Bool) (l₂ : List Entry) :
    ∀ (l₁ : List Entry) (k : Entry),
      planAux ig k (l₁ ++ l₂) =
        planAux ig k l₁ ++ planAux ig (keptAfter ig k l₁) l₂ := by
  intro l₁
  induction l₁ with
  | nil => intro k; simp [planAux, keptAfter_nil]
  | cons c l₁ ih =>
    intro k
    by_cases h : eqSig ig k c = true <;>
      simp [planAux, h, keptAfter_cons, ih]

theorem sigOf_keptAfter (ig : Bool) :
    ∀ (l : List Entry) (k : Entry),
      sigOf ig (keptAfter ig k l) = sigOf ig (l.getLastD k) := by
  intro l
  induction l with
  | nil => intro k; rfl
  | cons c l ih =>
    intro k
    rw [keptAfter_cons, ih, List.getLastD_cons]
    cases l with
    | nil =>
      by_cases h : eqSig ig k c = true
      · simpa [List.getLastD, h] using (eqSig_eq_true_iff ig k c).1 h
      · simp [List.getLastD, h]
    | cons d l => rw [List.getLastD_cons, List.getLastD_cons]

theorem planAux_all_eq (ig : Bool) (k : Entry) :
    ∀ l : List Entry, (∀ x ∈ l, eqSig ig k x = true) →
      planAux ig k l = l.map Entry.id := by
  intro l
  induction l with
  | nil => intro; rfl
  | cons c l ih =>
    intro h
    have hc := h c (by simp)
    simp only [planAux, hc, if_pos, List.map_cons, List.cons.injEq, true_and]
    exact ih fun x hx => h x (by simp [hx])

theorem keptAfter_all_eq (ig : Bool) (k : Entry) :
    ∀ l : List Entry, (∀ x ∈ l, eqSig ig k x = true) →
      keptAfter ig k l = k := by
  intro l
  induction l with
  | nil => intro; rfl
  | cons c l ih =>
    intro h
    rw [keptAfter_cons, if_pos (h c (by simp))]
    exact ih fun x hx => h x (by simp [hx])

theorem getLast?_cons_getLastD {α : Type _} (p : α) :
    ∀ l : List α, (p :: l).getLast? = some (l.getLastD p) := by
  intro l
  induction l generalizing p with
  | nil => rfl
  | cons c l ih => rw [List.getLastD_cons]; exact ih c

/-! ## Claims C1 and C2: the duplicate planner -/

/-- **C1.** For every entry sequence containing a maximal run of `k ≥ 2`
consecutive signature-equal entries (`pre ++ (r0 :: rtail) ++ post` with
`k = rtail.length + 1`, the run's entries pairwise signature-equal, and the
run not extendable to either side), the planner's output consists of the plan
for `pre`, then exactly the identifiers of entries 2 … k of the run
(`rtail.map Entry.id`, i.e. all but the first of the run), then the plan for
`post` computed with the kept reference still at the run's first entry `r0` —
the kept reference never advanced inside the run. -/
theorem plan_run_collapse (ig : Bool) (pre post rtail : List Entry) (r0 : Entry)
    (hpair : ∀ x ∈ r0 :: rtail, ∀ y ∈ r0 :: rtail, eqSig ig x y = true)
    (hk : rtail ≠ [])
    (hleft : ∀ p, pre.getLast? = some p → eqSig ig p r0 = false)
    (hright : ∀ q, post.head? = some q → eqSig ig r0 q = false) :
    planDeletionsAsc ig (pre ++ (r0 :: rtail) ++ post) =
      planDeletionsAsc ig pre ++ (rtail.map Entry.id ++ planAux ig r0 post) := by
  have hrun : ∀ x ∈ rtail, eqSig ig r0 x = true := fun x hx =>
    hpair r0 (by simp) x (by simp [hx])
  have hmid : planAux ig r0 (rtail ++ post) =
      rtail.map Entry.id ++ planAux ig r0 post := by
    rw [planAux_append, planAux_all_eq ig r0 rtail hrun,
      keptAfter_all_eq ig r0 rtail hrun]
  cases pre with
  | nil =>
    simp only [List.nil_append, planDeletionsAsc, List.cons_append]
    exact hmid
  | cons p pre' =>
    have hlast : eqSig ig (pre'.getLastD p) r0 = false := by
      apply hleft
      exact getLast?_cons_getLastD p pre'
    have hkept : eqSig ig (keptAfter ig p pre') r0 = false := by
      rcases h : eqSig ig (keptAfter ig p pre') r0 with _ | _
      · rfl
      · exfalso
        have h1 := (eqSig_eq_true_iff ig _ r0).2
          (((sigOf_keptAfter ig pre' p).symm.trans
            ((eqSig_eq_true_iff ig _ r0).1 h)))
        rw [hlast] at h1
        exact Bool.false_ne_true h1
    simp only [List.cons_append, planDeletionsAsc, List.append_assoc]
    rw [planAux_append ig (r0 :: (rtail ++ post)) pre' p]
    simp only [List.cons_append, planAux, hkept, Bool.false_eq_true, if_false,
      hmid]

/-- Witness for C1: entries `⟨1,7⟩, ⟨2,7⟩` (same author, no text/attachments)
form a maximal run of length 2 with empty context; the plan is exactly the
second entry's identifier. -/
theorem plan_run_collapse_witness :
    planDeletionsAsc true (([] : List Entry) ++ (wEntry1 :: [wEntry2]) ++ []) =
      planDeletionsAsc true [] ++ (List.map Entry.id [wEntry2] ++ planAux true wEntry1 []) := by
  apply plan_run_collapse
  · intro x hx y hy
    simp only [List.mem_cons, List.mem_singleton, List.not_mem_nil, or_false] at hx hy
    have hsig : sigOf true wEntry1 = sigOf true wEntry2 := rfl
    rcases hx with rfl | rfl <;> rcases hy with rfl | rfl <;>
      rw [eqSig_eq_true_iff] <;> simp [hsig]
  · simp
  · intro p hp; simp at hp
  · intro q hq; simp at hq

/-- **C2.** For every entry sequence the planner's output is a subsequence of
the entries' identifiers in input order, and — when the first yielded entry's
identifier does not recur later (the spec's id-uniqueness invariant) — that
identifier never appears in the plan. -/
theorem plan_subseq_first_never (ig : Bool) :
    (∀ l : List Entry, (planDeletionsAsc ig l).Sublist (l.map Entry.id)) ∧
    (∀ (e : Entry) (rest : List Entry), e.id ∉ rest.map Entry.id →
      e.id ∉ planDeletionsAsc ig (e :: rest)) := by
  constructor
  · intro l
    cases l with
    | nil => simp [planDeletionsAsc]
    | cons e rest =>
      exact (planAux_sublist ig rest e).trans (List.sublist_cons_self e.id _)
  · intro e rest h hmem
    exact h ((planAux_sublist ig rest e).mem hmem)

/-- Witness for C2: three concrete entries with distinct identifiers; the
plan for `[⟨1,7⟩, ⟨2,7⟩, ⟨3,9⟩]` is a subsequence of `[1, 2, 3]` not
containing 1. -/
theorem plan_subseq_first_never_witness :
    (planDeletionsAsc true [wEntry1, wEntry2, wEntry3]).Sublist
      (List.map Entry.id [wEntry1, wEntry2, wEntry3]) ∧
    (wEntry1.id ∉ planDeletionsAsc true [wEntry1, wEntry2, wEntry3]) :=
  ⟨(plan_subseq_first_never true).1 [wEntry1, wEntry2, wEntry3],
   (plan_subseq_first_never true).2 wEntry1 [wEntry2, wEntry3] (by decide)⟩

/-! ## Claim C3: the resilient call wrapper -/

theorem withRetries_retriable_aux {α : Type _} (fn : Nat → Except VkError α)
    (err : Nat → VkError) (hf : ∀ i, fn i = .error (err i))
    (hr : ∀ i, retriable (err i).code = true) :
    ∀ budget attempt,
      withRetriesCalls fn budget attempt = budget + 1 ∧
      withRetriesAux fn budget attempt =
        .error ⟨(err (attempt + budget)).code, (err (attempt + budget)).message,
          attempt + budget⟩ := by
  intro budget
  induction budget with
  | zero =>
    intro a
    refine ⟨rfl, ?_⟩
    simp [withRetriesAux, hf a]
  | succ b ih =>
    intro a
    have h1 := (ih (a + 1)).1
    have h2 := (ih (a + 1)).2
    have hs : a + 1 + b = a + (b + 1) := by omega
    rw [hs] at h2
    constructor
    · simp only [withRetriesCalls, hf a, hr a, if_true, h1]
      omega
    · simp only [withRetriesAux, hf a, hr a, if_true, h2]

/-- **C3.** An operation failing with a fatal (non-retriable) classification
on every attempt is invoked exactly once regardless of `maxRetries`, and an
operation failing with a retriable classification (code 6, code 10, or a 5xx
code) on every attempt is invoked exactly `maxRetries + 1` times; in both
cases the wrapped failure raised carries the original code, message and the
attempt counter at the final failure. -/
theorem withRetries_attempt_counts {α : Type _} (fn : Nat → Except VkError α)
    (err : Nat → VkError) (m : Nat) (hf : ∀ i, fn i = .error (err i)) :
    ((∀ i, retriable (err i).code = false) →
      withRetriesCalls fn m 0 = 1 ∧
      withRetries fn m = .error ⟨(err 0).code, (err 0).message, 0⟩) ∧
    ((∀ i, retriable (err i).code = true) →
      withRetriesCalls fn m 0 = m + 1 ∧
      withRetries fn m = .error ⟨(err m).code, (err m).message, m⟩) := by
  constructor
  · intro hr
    cases m with
    | zero => exact ⟨rfl, by simp [withRetries, withRetriesAux, hf 0]⟩
    | succ b =>
      constructor
      · rw [withRetriesCalls, hf 0]
        simp [hr 0]
      · rw [withRetries, withRetriesAux, hf 0]
        simp [hr 0]
  · intro hr
    have h := withRetries_retriable_aux fn err hf hr m 0
    simpa [withRetries] using h

/-- Witness for C3: the always-fatal operation (code 100) is called once,
the always-rate-limited operation (code 6) with `maxRetries = 6` is called 7
times and the wrapped failure reports attempt 6. -/
theorem withRetries_attempt_counts_witness :
    (withRetriesCalls wFatalFn 6 0 = 1 ∧
      withRetries wFatalFn 6 = .error ⟨some 100, "perm", 0⟩) ∧
    (withRetriesCalls wRateFn 6 0 = 7 ∧
      withRetries wRateFn 6 = .error ⟨some 6, "rate", 6⟩) :=
  ⟨(withRetries_attempt_counts wFatalFn (fun _ => ⟨some 100, "perm"⟩) 6
      (fun _ => rfl)).1 (fun _ => rfl),
   (withRetries_attempt_counts wRateFn (fun _ => ⟨some 6, "rate"⟩) 6
      (fun _ => rfl)).2 (fun _ => rfl)⟩

/-! ## Claim C10: the normalizer on absent input -/

theorem normCore_nil : normCore [] = [] := by
  simp [normCore, nbspToSpace, lowerAll, stripZW, collapseST, collapseNL,
    trimWS, trimEnd]

/-- **C10.** `normalizeText` is total on absent input: `null`/`undefined`
(modelled by `none`) and the empty string all normalize to the empty string,
so an entry with no text field compares with an empty normalized text. -/
theorem normalizeText_absent :
    normalizeText none = [] ∧ normalizeText (some []) = [] ∧
    (∀ e : Entry, e.text = none → normalizeText e.text = []) := by
  have h : normalizeText none = [] := by
    simpa [normalizeText, jsOrEmpty] using normCore_nil
  refine ⟨h, by simpa [normalizeText, jsOrEmpty] using normCore_nil, ?_⟩
  intro e he
  rw [he, h]

/-! ## Claim C8: attachment signature is order-independent -/

/-- **C8.** `attsHash` is invariant under permutation of the attachment
list (with the ignore flag fixed): the tuples are sorted before joining, and
sorting two permuted tuple lists under the total lexicographic order yields
the same list. -/
theorem attsHash_perm (atts atts' : List (Option AttObj)) (ig : Bool)
    (h : atts.Perm atts') : attsHash atts ig = attsHash atts' ig := by
  unfold attsHash
  have hlen : atts.length = atts'.length := h.length_eq
  have hsort : List.insertionSort (· ≤ ·) (atts.map attTuple) =
      List.insertionSort (· ≤ ·) (atts'.map attTuple) := by
    refine @List.eq_of_perm_of_sorted String (· ≤ ·) inferInstance _ _ ?_ ?_ ?_
    · exact (List.perm_insertionSort _ _).trans
        ((h.map attTuple).trans (List.perm_insertionSort _ _).symm)
    · exact List.sorted_insertionSort _ _
    · exact List.sorted_insertionSort _ _
  rw [hlen, hsort]

/-- Witness for C8: swapping a photo and a document attachment yields the
same signature. -/
theorem attsHash_perm_witness :
    attsHash [wAttPhoto, wAttDoc] false = attsHash [wAttDoc, wAttPhoto] false :=
  attsHash_perm [wAttPhoto, wAttDoc] [wAttDoc, wAttPhoto] false
    (List.Perm.swap wAttDoc wAttPhoto [])

/-! ## Claim C9: dry-run issues no deletion and reports a bounded preview -/

/-- **C9.** With dry-run set, `main` hands no identifier to `deleteBatch`
(no deletion call is issued, so the remote thread is untouched by the core),
and the report carries the plan's total size, a head preview that is a
prefix of the plan of length `min planPreview plan.length`, and a tail
preview that is a suffix of the plan of the same length. -/
theorem dryRun_frame (plan : List Int) (preview : Nat) (dryRun : Bool)
    (h : dryRun = true) :
    mainDeleteCalls dryRun plan = [] ∧
    (dryRunReport plan preview).total = plan.length ∧
    (dryRunReport plan preview).head <+: plan ∧
    (dryRunReport plan preview).head.length = min preview plan.length ∧
    (dryRunReport plan preview).tail <:+ plan ∧
    (dryRunReport plan preview).tail.length = min preview plan.length := by
  subst h
  refine ⟨rfl, ?_, ?_, ?_, ?_, ?_⟩ <;> unfold dryRunReport <;>
    by_cases h0 : plan.length = 0
  · simp [h0]
  · simp [h0]
  · simp [h0]
  · simp only [h0, if_neg, ite_false]
    exact List.take_prefix _ _
  · simp [h0]
  · simp only [h0, if_neg, ite_false, List.length_take]
    omega
  · simp [h0, List.eq_nil_of_length_eq_zero h0]
  · simp only [h0, if_neg, ite_false]
    exact List.drop_suffix _ _
  · simp [h0]
  · simp only [h0, if_neg, ite_false, List.length_drop]
    omega

/-- Witness for C9: any concrete dry-run instantiation. -/
theorem dryRun_frame_witness :
    mainDeleteCalls true [5, 6, 7] = [] ∧
    (dryRunReport [5, 6, 7] 2).total = 3 ∧
    (dryRunReport [5, 6, 7] 2).head <+: [5, 6, 7] ∧
    (dryRunReport [5, 6, 7] 2).head.length = min 2 3 ∧
    (dryRunReport [5, 6, 7] 2).tail <:+ [5, 6, 7] ∧
    (dryRunReport [5, 6, 7] 2).tail.length = min 2 3 :=
  dryRun_frame [5, 6, 7] 2 true rfl

/-! ## The bounded executor: reachable-state invariants -/

theorem settle_ne_none {β ε : Type} (s : Option (Except ε (List (Option β))))
    (v : Except ε (List (Option β))) : settle s v ≠ none := by
  cases s <;> simp [settle]

theorem settle_none {β ε : Type} (v : Except ε (List (Option β))) :
    settle none v = some v := rfl

theorem settle_some {β ε : Type} (x : Except ε (List (Option β))) (v) :
    settle (some x) v = some x := rfl

theorem launchLoop_spec {β ε : Type} (n conc : Nat) :
    ∀ (fuel : Nat) (s : PmapState β ε),
      n ≤ s.nextIdx + fuel → s.nextIdx ≤ n →
      s.resolvedCount + s.active.length = s.nextIdx →
      (s.done ++ s.active).Perm (List.range s.nextIdx) →
      s.active.length ≤ conc →
      (launchLoop n conc fuel s).resolvedCount = s.resolvedCount ∧
      (launchLoop n conc fuel s).results = s.results ∧
      (launchLoop n conc fuel s).settled = s.settled ∧
      (launchLoop n conc fuel s).done = s.done ∧
      (launchLoop n conc fuel s).nextIdx ≤ n ∧
      (launchLoop n conc fuel s).resolvedCount +
        (launchLoop n conc fuel s).active.length =
        (launchLoop n conc fuel s).nextIdx ∧
      ((launchLoop n conc fuel s).done ++
        (launchLoop n conc fuel s).active).Perm
        (List.range (launchLoop n conc fuel s).nextIdx) ∧
      (launchLoop n conc fuel s).active.length ≤ conc ∧
      ((launchLoop n conc fuel s).active.length = conc ∨
        (launchLoop n conc fuel s).nextIdx = n) := by
  intro fuel
  induction fuel with
  | zero =>
    intro s hfuel hidx hcnt hperm hconc
    exact ⟨rfl, rfl, rfl, rfl, hidx, hcnt, hperm, hconc,
      Or.inr (show s.nextIdx = n by omega)⟩
  | succ fuel ih =>
    intro s hfuel hidx hcnt hperm hconc
    simp only [launchLoop]
    by_cases hcond : s.active.length < conc ∧ s.nextIdx < n
    · rw [if_pos hcond]
      apply ih
      · simp; omega
      · simp; omega
      · simp [List.length_append]; omega
      · simp only [List.range_succ, ← List.append_assoc]
        exact hperm.append_right [s.nextIdx]
      · simp [List.length_append]; omega
    · rw [if_neg hcond]
      refine ⟨rfl, rfl, rfl, rfl, hidx, hcnt, hperm, hconc, by omega⟩

theorem initState_facts {β ε : Type} (n conc : Nat) (worker : Nat → Except ε β) :
    PmapInv n (clampConc conc) worker (initState n conc) ∧
    (initState n conc : PmapState β ε).resolvedCount = 0 := by
  by_cases h0 : (0 : Nat) = n
  · subst h0
    have hinit : (initState 0 conc : PmapState β ε) =
        ⟨0, [], 0, [], [], some (.ok [])⟩ := rfl
    rw [hinit]
    exact ⟨⟨by simp, by simp, by simp, by simp, Or.inr rfl, fun r _ => rfl,
      fun _ => by simp, Or.inl (fun j hj => by simp at hj)⟩, rfl⟩
  · have hinit : (initState n conc : PmapState β ε) =
        launchLoop n (clampConc conc) n ⟨0, [], 0, List.replicate n none, [], none⟩ := by
      unfold initState nextStep
      simp only [if_neg h0, Nat.sub_zero]
    have h := launchLoop_spec n (clampConc conc) n
      (⟨0, [], 0, List.replicate n none, [], none⟩ : PmapState β ε)
      (by simp) (by simp) (by simp) (by simp) (by simp)
    obtain ⟨ha, _, hc, hd, he, hf, hg, hh, hi⟩ := h
    rw [hinit]
    refine ⟨⟨he, hf, hg, hh, hi, ?_, ?_, Or.inl ?_⟩, by simpa using ha⟩
    · intro r hr
      rw [hc] at hr
      simp at hr
    · intro hres
      rw [ha] at hres
      simp at hres
      exact absurd hres h0
    · intro j hj
      rw [hd] at hj
      simp at hj

theorem completeStep_eq_ok {β ε : Type} (n conc : Nat) (worker : Nat → Except ε β)
    (s : PmapState β ε) (c : Nat) (hlen : s.active.length ≠ 0)
    (hklt : c % s.active.length < s.active.length) (v : β)
    (hw : worker (s.active.get ⟨c % s.active.length, hklt⟩) = .ok v) :
    completeStep n conc worker s c =
      nextStep n conc
        ⟨s.nextIdx, s.active.eraseIdx (c % s.active.length),
         s.resolvedCount + 1,
         s.results.set (s.active.get ⟨c % s.active.length, hklt⟩) v,
         s.done ++ [s.active.get ⟨c % s.active.length, hklt⟩],
         s.settled⟩ := by
  unfold completeStep
  rw [dif_neg hlen]
  simp only [hw]

theorem completeStep_eq_err {β ε : Type} (n conc : Nat) (worker : Nat → Except ε β)
    (s : PmapState β ε) (c : Nat) (hlen : s.active.length ≠ 0)
    (hklt : c % s.active.length < s.active.length) (e : ε)
    (hw : worker (s.active.get ⟨c % s.active.length, hklt⟩) = .error e) :
    completeStep n conc worker s c =
      nextStep n conc
        ⟨s.nextIdx, s.active.eraseIdx (c % s.active.length),
         s.resolvedCount + 1, s.results,
         s.done ++ [s.active.get ⟨c % s.active.length, hklt⟩],
         settle s.settled (.error e)⟩ := by
  unfold completeStep
  rw [dif_neg hlen]
  simp only [hw]

theorem completeStep_facts {β ε : Type} (n conc : Nat) (worker : Nat → Except ε β)
    (s : PmapState β ε) (c : Nat) (hInv : PmapInv n conc worker s) :
    PmapInv n conc worker (completeStep n conc worker s c) ∧
    (completeStep n conc worker s c).resolvedCount =
      (if s.active.length = 0 then s.resolvedCount else s.resolvedCount + 1) := by
  obtain ⟨h1, h2, h3, h4, h5, h6, h7, h8⟩ := hInv
  by_cases hlen : s.active.length = 0
  · rw [if_pos hlen,
      show completeStep n conc worker s c = s from by
        unfold completeStep; rw [dif_pos hlen]]
    exact ⟨⟨h1, h2, h3, h4, h5, h6, h7, h8⟩, rfl⟩
  · rw [if_neg hlen]
    have hpos : 0 < s.active.length := Nat.pos_of_ne_zero hlen
    have hklt : c % s.active.length < s.active.length := Nat.mod_lt _ hpos
    have hperm_active :
        s.active.Perm (s.active.get ⟨c % s.active.length, hklt⟩ ::
          s.active.eraseIdx (c % s.active.length)) := by
      rw [List.eraseIdx_eq_take_drop_succ]
      conv_lhs => rw [← List.take_append_drop (c % s.active.length) s.active,
        List.drop_eq_getElem_cons hklt]
      exact List.perm_middle
    have herase_len : (s.active.eraseIdx (c % s.active.length)).length =
        s.active.length - 1 := by
      rw [List.length_eraseIdx]
      simp [hklt]
    have hcnt3 : (s.resolvedCount + 1) +
        (s.active.eraseIdx (c % s.active.length)).length = s.nextIdx := by
      rw [herase_len]; omega
    have hperm3 : ((s.done ++ [s.active.get ⟨c % s.active.length, hklt⟩]) ++
        s.active.eraseIdx (c % s.active.length)).Perm
        (List.range s.nextIdx) := by
      rw [List.append_assoc, List.singleton_append]
      exact (List.Perm.append_left s.done hperm_active.symm).trans h3
    have hno : ∀ r, s.settled = some (Except.ok r) → False := by
      intro r hr
      have := h6 r hr
      omega
    cases hw : worker (s.active.get ⟨c % s.active.length, hklt⟩) with
    | ok v =>
      rw [completeStep_eq_ok n conc worker s c hlen hklt v hw]
      by_cases hres : s.resolvedCount + 1 = n
      · rw [show nextStep n conc
            (⟨s.nextIdx, s.active.eraseIdx (c % s.active.length),
              s.resolvedCount + 1,
              s.results.set (s.active.get ⟨c % s.active.length, hklt⟩) v,
              s.done ++ [s.active.get ⟨c % s.active.length, hklt⟩],
              s.settled⟩ : PmapState β ε) =
            ⟨s.nextIdx, s.active.eraseIdx (c % s.active.length),
              s.resolvedCount + 1,
              s.results.set (s.active.get ⟨c % s.active.length, hklt⟩) v,
              s.done ++ [s.active.get ⟨c % s.active.length, hklt⟩],
              settle s.settled
                (.ok (s.results.set (s.active.get ⟨c % s.active.length, hklt⟩) v))⟩
            from by unfold nextStep; rw [if_pos hres]]
        refine ⟨⟨h1, hcnt3, hperm3, by simp [herase_len]; omega,
          Or.inr (show s.nextIdx = n by omega), fun r _ => hres,
          fun _ => settle_ne_none _ _, ?_⟩, rfl⟩
        rcases h8 with hall | ⟨e', he'⟩
        · refine Or.inl ?_
          intro j' hj'
          rcases List.mem_append.1 hj' with hj' | hj'
          · exact hall j' hj'
          · rw [List.mem_singleton.1 hj']
            exact ⟨v, hw⟩
        · exact Or.inr ⟨e', by rw [he']; rfl⟩
      · rw [show nextStep n conc
            (⟨s.nextIdx, s.active.eraseIdx (c % s.active.length),
              s.resolvedCount + 1,
              s.results.set (s.active.get ⟨c % s.active.length, hklt⟩) v,
              s.done ++ [s.active.get ⟨c % s.active.length, hklt⟩],
              s.settled⟩ : PmapState β ε) =
            launchLoop n conc (n - s.nextIdx)
              ⟨s.nextIdx, s.active.eraseIdx (c % s.active.length),
                s.resolvedCount + 1,
                s.results.set (s.active.get ⟨c % s.active.length, hklt⟩) v,
                s.done ++ [s.active.get ⟨c % s.active.length, hklt⟩],
                s.settled⟩
            from by unfold nextStep; rw [if_neg hres]]
        have spec := launchLoop_spec n conc (n - s.nextIdx)
          (⟨s.nextIdx, s.active.eraseIdx (c % s.active.length),
            s.resolvedCount + 1,
            s.results.set (s.active.get ⟨c % s.active.length, hklt⟩) v,
            s.done ++ [s.active.get ⟨c % s.active.length, hklt⟩],
            s.settled⟩ : PmapState β ε)
          (show n ≤ s.nextIdx + (n - s.nextIdx) by omega)
          (show s.nextIdx ≤ n from h1) hcnt3 hperm3
          (show (s.active.eraseIdx (c % s.active.length)).length ≤ conc by
            rw [herase_len]; omega)
        obtain ⟨ta, _, tc, td, te, tf, tg, th2, ti⟩ := spec
        refine ⟨⟨te, tf, tg, th2, ti, ?_, ?_, ?_⟩, ?_⟩
        · intro r hr
          rw [tc] at hr
          exact absurd (h6 r hr) (by omega)
        · intro hres'
          rw [ta] at hres'
          exact absurd hres' hres
        · rcases h8 with hall | ⟨e', he'⟩
          · refine Or.inl ?_
            intro j' hj'
            rw [td] at hj'
            rcases List.mem_append.1 hj' with hj' | hj'
            · exact hall j' hj'
            · rw [List.mem_singleton.1 hj']
              exact ⟨v, hw⟩
          · exact Or.inr ⟨e', by rw [tc]; exact he'⟩
        · rw [ta]
    | error e =>
      rw [completeStep_eq_err n conc worker s c hlen hklt e hw]
      have hset : ∃ e', settle s.settled (Except.error e) =
          some (Except.error e') := by
        cases hs : s.settled with
        | none => exact ⟨e, rfl⟩
        | some x =>
          cases x with
          | ok r => exact absurd hs (fun h => hno r h)
          | error e' => exact ⟨e', rfl⟩
      obtain ⟨e', he'⟩ := hset
      by_cases hres : s.resolvedCount + 1 = n
      · rw [show nextStep n conc
            (⟨s.nextIdx, s.active.eraseIdx (c % s.active.length),
              s.resolvedCount + 1, s.results,
              s.done ++ [s.active.get ⟨c % s.active.length, hklt⟩],
              settle s.settled (.error e)⟩ : PmapState β ε) =
            ⟨s.nextIdx, s.active.eraseIdx (c % s.active.length),
              s.resolvedCount + 1, s.results,
              s.done ++ [s.active.get ⟨c % s.active.length, hklt⟩],
              settle (settle s.settled (.error e)) (.ok s.results)⟩
            from by unfold nextStep; rw [if_pos hres]]
        refine ⟨⟨h1, hcnt3, hperm3, by simp [herase_len]; omega,
          Or.inr (show s.nextIdx = n by omega), fun r _ => hres,
          fun _ => settle_ne_none _ _, Or.inr ⟨e', by rw [he']; rfl⟩⟩, rfl⟩
      · rw [show nextStep n conc
            (⟨s.nextIdx, s.active.eraseIdx (c % s.active.length),
              s.resolvedCount + 1, s.results,
              s.done ++ [s.active.get ⟨c % s.active.length, hklt⟩],
              settle s.settled (.error e)⟩ : PmapState β ε) =
            launchLoop n conc (n - s.nextIdx)
              ⟨s.nextIdx, s.active.eraseIdx (c % s.active.length),
                s.resolvedCount + 1, s.results,
                s.done ++ [s.active.get ⟨c % s.active.length, hklt⟩],
                settle s.settled (.error e)⟩
            from by unfold nextStep; rw [if_neg hres]]
        have spec := launchLoop_spec n conc (n - s.nextIdx)
          (⟨s.nextIdx, s.active.eraseIdx (c % s.active.length),
            s.resolvedCount + 1, s.results,
            s.done ++ [s.active.get ⟨c % s.active.length, hklt⟩],
            settle s.settled (.error e)⟩ : PmapState β ε)
          (show n ≤ s.nextIdx + (n - s.nextIdx) by omega)
          (show s.nextIdx ≤ n from h1) hcnt3 hperm3
          (show (s.active.eraseIdx (c % s.active.length)).length ≤ conc by
            rw [herase_len]; omega)
        obtain ⟨ta, _, tc, td, te, tf, tg, th2, ti⟩ := spec
        refine ⟨⟨te, tf, tg, th2, ti, ?_, ?_,
          Or.inr ⟨e', by rw [tc]; exact he'⟩⟩, ?_⟩
        · intro r hr
          rw [tc, he'] at hr
          cases hr
        · intro hres'
          rw [ta] at hres'
          exact absurd hres' hres
        · rw [ta]

theorem foldl_inv {β ε : Type} (n conc : Nat) (worker : Nat → Except ε β) :
    ∀ (σ : List Nat) (s : PmapState β ε), PmapInv n conc worker s →
      PmapInv n conc worker (σ.foldl (completeStep n conc worker) s) := by
  intro σ
  induction σ with
  | nil => intro s hs; exact hs
  | cons c σ ih =>
    intro s hs
    exact ih _ (completeStep_facts n conc worker s c hs).1

theorem foldl_resolved {β ε : Type} (n conc : Nat) (worker : Nat → Except ε β)
    (hc1 : 1 ≤ conc) :
    ∀ (σ : List Nat) (s : PmapState β ε), PmapInv n conc worker s →
      (σ.foldl (completeStep n conc worker) s).resolvedCount =
        min (s.resolvedCount + σ.length) n := by
  intro σ
  induction σ with
  | nil =>
    intro s hs
    obtain ⟨h1, h2, _, _, _, _, _, _⟩ := hs
    simp only [List.foldl_nil, List.length_nil, Nat.add_zero]
    omega
  | cons c σ ih =>
    intro s hs
    have hstep := completeStep_facts n conc worker s c hs
    obtain ⟨h1, h2, _, _, h5, _, _, _⟩ := hs
    have := ih _ hstep.1
    rw [List.foldl_cons, this, hstep.2]
    by_cases hA : s.active.length = 0
    · have hidx : s.resolvedCount = n := by
        rcases h5 with h5 | h5
        · omega
        · omega
      rw [if_pos hA]
      simp [hidx]
    · rw [if_neg hA]
      have hle : s.resolvedCount + 1 ≤ n := by omega
      simp only [List.length_cons]
      omega

theorem pMapRun_inv {β ε : Type} (n conc : Nat) (worker : Nat → Except ε β)
    (σ : List Nat) :
    PmapInv n (clampConc conc) worker (pMapRun n conc worker σ) :=
  foldl_inv n (clampConc conc) worker σ _ (initState_facts n conc worker).1

theorem pMapRun_end {β ε : Type} (n conc : Nat) (worker : Nat → Except ε β)
    (σ : List Nat) (hσ : σ.length = n) :
    (pMapRun n conc worker σ).resolvedCount = n ∧
    (pMapRun n conc worker σ).active = [] ∧
    (pMapRun n conc worker σ).done.Perm (List.range n) := by
  have hc1 : 1 ≤ clampConc conc := Nat.le_max_left 1 conc
  have hres0 := foldl_resolved n (clampConc conc) worker hc1 σ _
    (initState_facts n conc worker).1
  rw [(initState_facts n conc worker).2, hσ, Nat.zero_add, Nat.min_self] at hres0
  have hres : (pMapRun n conc worker σ).resolvedCount = n := hres0
  have hInv := pMapRun_inv n conc worker σ
  obtain ⟨h1, h2, h3, _, _, _, _, _⟩ := hInv
  have hactive : (pMapRun n conc worker σ).active.length = 0 := by omega
  have hanil : (pMapRun n conc worker σ).active = [] :=
    List.eq_nil_of_length_eq_zero hactive
  refine ⟨hres, hanil, ?_⟩
  have hidx : (pMapRun n conc worker σ).nextIdx = n := by omega
  have := h3
  rw [hanil, List.append_nil, hidx] at this
  exact this

/-! ## Claims C4 and C5: the bounded executor -/

/-- **C5.** For every item count, worker and `concurrency ≥ 1`, the number
of in-flight workers never exceeds `concurrency` in any reachable state of
the run (any schedule prefix), and a full schedule (one completion per item)
completes every item exactly once — the completed items are a permutation of
`0 … n-1` — even if some workers fail. -/
theorem pMap_bounded_and_complete {β ε : Type} (n conc : Nat)
    (worker : Nat → Except ε β) (hc1 : 1 ≤ conc) (σ : List Nat) :
    (pMapRun n conc worker σ).active.length ≤ conc ∧
    (σ.length = n → (pMapRun n conc worker σ).done.Perm (List.range n)) := by
  have hclamp : clampConc conc = conc := Nat.max_eq_right hc1
  constructor
  · have h := (pMapRun_inv n conc worker σ).2.2.2.1
    rwa [hclamp] at h
  · intro hσ
    exact (pMapRun_end n conc worker σ hσ).2.2

/-- Witness for C5: two items, concurrency 1, a worker failing on item 0;
the in-flight bound holds at the end and both items completed exactly
once. -/
theorem pMap_bounded_and_complete_witness :
    (pMapRun 2 1 wFailWorker [0, 0]).active.length ≤ 1 ∧
    (pMapRun 2 1 wFailWorker [0, 0]).done.Perm (List.range 2) :=
  ⟨(pMap_bounded_and_complete 2 1 wFailWorker (by decide) [0, 0]).1,
   (pMap_bounded_and_complete 2 1 wFailWorker (by decide) [0, 0]).2 rfl⟩

/-- Counterexample for C4 as stated: with a worker that fails on item 0,
`pMap`'s promise is **rejected** with that failure (`.catch(reject)` at
src/index.js line 227) — the failure is thrown out of `run` and is not
recorded as item 0's outcome (its results slot stays empty) — although the
sibling item still completes. -/
theorem pMap_failure_rejects_cex :
    (pMapRun 2 2 wFailWorker [0, 0]).settled = some (Except.error "boom") ∧
    (pMapRun 2 2 wFailWorker [0, 0]).results = [none, some true] ∧
    (pMapRun 2 2 wFailWorker [0, 0]).done = [0, 1] :=
  ⟨rfl, rfl, rfl⟩

/-- **C4 (amended).** The run's promise fulfills only after every item has
completed; a single worker's failure does not abort sibling workers — under
a full schedule every item still completes exactly once — but the failure is
not captured as that item's recorded outcome: it rejects the run itself
(first failure wins), so `pMap` only resolves when no completed worker has
failed. -/
theorem pMap_settle_spec {β ε : Type} (n conc : Nat)
    (worker : Nat → Except ε β) (σ : List Nat) :
    (∀ r, (pMapRun n conc worker σ).settled = some (Except.ok r) →
      (pMapRun n conc worker σ).resolvedCount = n) ∧
    (σ.length = n → (pMapRun n conc worker σ).done.Perm (List.range n)) ∧
    (σ.length = n → ∀ j, j < n → (∀ v, worker j ≠ Except.ok v) →
      ∃ e, (pMapRun n conc worker σ).settled = some (Except.error e)) := by
  have hInv := pMapRun_inv n conc worker σ
  obtain ⟨_, _, _, _, _, h6, h7, h8⟩ := hInv
  refine ⟨h6, fun hσ => (pMapRun_end n conc worker σ hσ).2.2, ?_⟩
  intro hσ j hj hfail
  have hdone := (pMapRun_end n conc worker σ hσ).2.2
  have hres := (pMapRun_end n conc worker σ hσ).1
  have hjdone : j ∈ (pMapRun n conc worker σ).done := by
    rw [hdone.mem_iff]
    exact List.mem_range.2 hj
  rcases h8 with hall | ⟨e, he⟩
  · obtain ⟨v, hv⟩ := hall j hjdone
    exact absurd hv (hfail v)
  · exact ⟨e, he⟩

/-- Witness for C4 (amended): the failing-worker run completes both items
and rejects; a run with an all-succeeding worker fulfills, and fulfillment
implies every item had completed. -/
theorem pMap_settle_spec_witness :
    (pMapRun 2 2 wFailWorker [0, 0]).done.Perm (List.range 2) ∧
    (∃ e, (pMapRun 2 2 wFailWorker [0, 0]).settled =
      some (Except.error e)) ∧
    (pMapRun 1 1 wOkWorker [0]).resolvedCount = 1 :=
  ⟨(pMap_settle_spec 2 2 wFailWorker [0, 0]).2.1 rfl,
   (pMap_settle_spec 2 2 wFailWorker [0, 0]).2.2 rfl 0 (by decide)
     (fun v h => by simp [wFailWorker] at h),
   (pMap_settle_spec 1 1 wOkWorker [0]).1 [some true] rfl⟩

/-! ## Claim C6: the deletion orchestrator under a single fatal item -/

theorem withRetriesAux_ok0 {α : Type _} (fn : Nat → Except VkError α) (v : α)
    (h : fn 0 = .ok v) : ∀ budget, withRetriesAux fn budget 0 = .ok v := by
  intro budget
  cases budget <;> simp [withRetriesAux, h]

theorem withRetriesAux_fatal0 {α : Type _} (fn : Nat → Except VkError α)
    (e : VkError) (h : fn 0 = .error e) (hr : retriable e.code = false) :
    ∀ budget, withRetriesAux fn budget 0 = .error ⟨e.code, e.message, 0⟩ := by
  intro budget
  cases budget <;> simp [withRetriesAux, h, hr]

theorem length_filter_range_ne (b : Nat) :
    ∀ n, b < n →
      ((List.range n).filter fun j => decide (j ≠ b)).length = n - 1 := by
  intro n
  induction n with
  | zero => intro h; omega
  | succ m ih =>
    intro hb
    rw [List.range_succ, List.filter_append]
    by_cases hmb : m = b
    · subst hmb
      have hall : (List.range m).filter (fun j => decide (j ≠ m)) =
          List.range m := by
        rw [List.filter_eq_self]
        intro j hj
        have := List.mem_range.1 hj
        simp
        omega
      have h2 : List.filter (fun j => decide (j ≠ m)) [m] = [] := by simp
      rw [hall, h2, List.append_nil, List.length_range]
      omega
    · have hbm : b < m := by omega
      have h1 : (List.filter (fun j => decide (j ≠ b)) [m]).length = 1 := by
        simp [hmb]
      rw [List.length_append, ih hbm, h1]
      omega

theorem filterMap_range_single {γ : Type _} (f : Nat → Option γ) (b : Nat)
    (x : γ) :
    ∀ n, b < n → (∀ j, j < n → j ≠ b → f j = none) → f b = some x →
      (List.range n).filterMap f = [x] := by
  intro n
  induction n with
  | zero => intro h; omega
  | succ m ih =>
    intro hb hnone hx
    rw [List.range_succ, List.filterMap_append]
    by_cases hmb : m = b
    · subst hmb
      have hnil : (List.range m).filterMap f = [] := by
        rw [List.filterMap_eq_nil]
        intro j hj
        exact hnone j (by have := List.mem_range.1 hj; omega) (by
          have := List.mem_range.1 hj; omega)
      simp [hnil, hx]
    · have hbm : b < m := by omega
      rw [ih hbm (fun j hj hjb => hnone j (by omega) hjb) hx]
      have : List.filterMap f [m] = [] := by
        simp [hnone m (by omega) hmb]
      rw [this, List.append_nil]

/-- **C6.** For a deletion plan in which exactly one item (index `b`) always
fails with a fatal classification while every other item succeeds, a full
run of `deleteBatch` completes every item (the batch is not aborted), counts
`n - 1` successes in the `ok` counter it returns, and logs exactly one
failure line, carrying the failing comment's identifier. -/
theorem deleteBatch_one_fatal (ids : List Int)
    (del : Int → Nat → Except VkError Unit) (mr conc b : Nat) (σ : List Nat)
    (hb : b < ids.length)
    (hok : ∀ j, j < ids.length → j ≠ b → del (ids.getD j 0) 0 = .ok ())
    (hbad : ∀ att, ∃ e, del (ids.getD b 0) att = .error e ∧
      retriable e.code = false)
    (hσ : σ.length = ids.length) :
    (deleteBatchRun ids del mr conc σ).done.Perm (List.range ids.length) ∧
    okCount (delWorker ids del mr) (deleteBatchRun ids del mr conc σ) =
      ids.length - 1 ∧
    (∃ w, failLogs (delWorker ids del mr) (deleteBatchRun ids del mr conc σ) =
      [(ids.getD b 0, w)]) := by
  have hdone : (deleteBatchRun ids del mr conc σ).done.Perm
      (List.range ids.length) :=
    (pMapRun_end ids.length conc (delWorker ids del mr) σ hσ).2.2
  have hwok : ∀ j, j < ids.length → j ≠ b →
      delWorker ids del mr j = .ok (true, none) := by
    intro j hj hjb
    unfold delWorker withRetries
    simp only [withRetriesAux_ok0 _ _ (hok j hj hjb) mr]
  obtain ⟨e0, he0, hre0⟩ := hbad 0
  have hwbad : delWorker ids del mr b =
      .ok (false, some (ids.getD b 0, ⟨e0.code, e0.message, 0⟩)) := by
    unfold delWorker withRetries
    simp only [withRetriesAux_fatal0 _ e0 he0 hre0 mr]
  refine ⟨hdone, ?_, ?_⟩
  · unfold okCount
    rw [(hdone.filter _).length_eq]
    rw [List.filter_congr (q := fun j => decide (j ≠ b)) ?_]
    · exact length_filter_range_ne b ids.length hb
    · intro j hj
      have hjn := List.mem_range.1 hj
      by_cases hjb : j = b
      · subst hjb
        rw [hwbad]
        simp
      · rw [hwok j hjn hjb]
        simp [hjb]
  · refine ⟨⟨e0.code, e0.message, 0⟩, ?_⟩
    unfold failLogs
    rw [List.perm_singleton.1 ((hdone.filterMap _).trans
      (by
        rw [filterMap_range_single _ b _ ids.length hb ?_ ?_]
        · intro j hj hjb
          rw [hwok j hj hjb]
        · rw [hwbad]))]

/-- Witness for C6 (Scenario D shape): four comment ids where id 12 (index
2) always fails fatally; the run completes all four, reports 3 successes and
logs exactly the failure of id 12. -/
theorem deleteBatch_one_fatal_witness :
    (deleteBatchRun [10, 11, 12, 13] wDelD 6 2 [0, 0, 0, 0]).done.Perm
      (List.range 4) ∧
    okCount (delWorker [10, 11, 12, 13] wDelD 6)
      (deleteBatchRun [10, 11, 12, 13] wDelD 6 2 [0, 0, 0, 0]) = 3 ∧
    (∃ w, failLogs (delWorker [10, 11, 12, 13] wDelD 6)
      (deleteBatchRun [10, 11, 12, 13] wDelD 6 2 [0, 0, 0, 0]) = [(12, w)]) :=
  deleteBatch_one_fatal [10, 11, 12, 13] wDelD 6 2 2 [0, 0, 0, 0]
    (by decide)
    (by
      intro j hj hjb
      have hj4 : j < 4 := by simpa using hj
      clear hj
      interval_cases j
      · rfl
      · rfl
      · exact absurd rfl hjb
      · rfl)
    (fun att => ⟨⟨some 100, "perm"⟩, rfl, rfl⟩) rfl

/-! ## Claim C7: idempotence of the text normalizer

Strategy: a normalization pass always lands in the normal form `NF`
(characters lower-case-stable and free of nbsp/zero-width/tab, no two
adjacent space-or-tab characters, no whitespace adjacent to a newline, no
leading or trailing whitespace), and every string in `NF` is a fixed point
of each pipeline stage. -/

theorem toNat_ofNat_valid (n : Nat) (h : n.isValidChar) :
    (Char.ofNat n).toNat = n := by
  simp only [Char.ofNat, h, reduceDIte, Char.ofNatAux, Char.toNat]
  exact BitVec.toNat_ofNatLt _ _

theorem toLowerJS_cases (c : Char) :
    ((toLowerJS c).toNat = c.toNat + 32 ∧ 65 ≤ c.toNat ∧ c.toNat ≤ 90) ∨
    toLowerJS c = c := by
  unfold toLowerJS
  by_cases h : 65 ≤ c.toNat ∧ c.toNat ≤ 90
  · rw [if_pos h]
    exact Or.inl ⟨toNat_ofNat_valid _ (Or.inl (by omega)), h.1, h.2⟩
  · rw [if_neg h]
    exact Or.inr rfl

theorem toLowerJS_fix_of_not_upper (c : Char)
    (h : ¬(65 ≤ c.toNat ∧ c.toNat ≤ 90)) : toLowerJS c = c := by
  unfold toLowerJS
  rw [if_neg h]

theorem toLowerJS_idem (c : Char) :
    toLowerJS (toLowerJS c) = toLowerJS c := by
  rcases toLowerJS_cases c with ⟨hn, _, h90⟩ | hfix
  · exact toLowerJS_fix_of_not_upper _ (by rw [hn]; omega)
  · rw [hfix]
    exact hfix

theorem toLowerJS_ne_nbsp (c : Char) (h : c ≠ nbsp) : toLowerJS c ≠ nbsp := by
  rcases toLowerJS_cases c with ⟨hn, h65, h90⟩ | hfix
  · intro hcon
    rw [hcon] at hn
    have : nbsp.toNat = 160 := rfl
    omega
  · rw [hfix]; exact h

theorem mem_nbspToSpace (l : List Char) (a : Char) (h : a ∈ nbspToSpace l) :
    a ≠ nbsp := by
  unfold nbspToSpace at h
  obtain ⟨x, _, hx⟩ := List.mem_map.1 h
  by_cases hxn : x = nbsp
  · rw [hxn] at hx
    simp at hx
    rw [← hx]
    decide
  · rw [if_neg hxn] at hx
    rw [← hx]
    exact hxn

theorem mem_lowerAll (l : List Char) (a : Char) (h : a ∈ lowerAll l) :
    ∃ x ∈ l, a = toLowerJS x := by
  obtain ⟨x, hx, hax⟩ := List.mem_map.1 h
  exact ⟨x, hx, hax.symm⟩

theorem mem_stripZW (l : List Char) (a : Char) (h : a ∈ stripZW l) :
    a ∈ l ∧ isZW a = false := by
  have := List.mem_filter.1 h
  exact ⟨this.1, by simpa using this.2⟩

theorem isST_cases (c : Char) (h : isST c = true) : c = ' ' ∨ c = '\t' := by
  unfold isST at h
  rcases Bool.or_eq_true_iff.1 h with h | h
  · exact Or.inl (by exact_mod_cast beq_iff_eq.1 h)
  · exact Or.inr (by exact_mod_cast beq_iff_eq.1 h)

theorem isST_false_of (c : Char) (h1 : c ≠ ' ') (h2 : c ≠ '\t') :
    isST c = false := by
  unfold isST
  simp [h1, h2]

theorem isST_isWS (c : Char) (h : isST c = true) : isWS c = true := by
  rcases isST_cases c h with rfl | rfl <;> decide

theorem head_dropWhile_false (p : Char → Bool) (l : List Char) (a : Char)
    (h : (l.dropWhile p).head? = some a) : p a = false := by
  have := List.head?_dropWhile_not p l
  rw [h] at this
  exact this

theorem collapseST_cons_neg (c : Char) (cs : List Char) (h : isST c = false) :
    collapseST (c :: cs) = c :: collapseST cs := by
  simp only [collapseST, h]
  simp

theorem collapseNL_cons_neg (c : Char) (cs : List Char) (h : isWS c = false) :
    collapseNL (c :: cs) = c :: collapseNL cs := by
  simp only [collapseNL, h]
  simp

theorem head?_collapseNL (l : List Char)
    (h : ∀ c, l.head? = some c → isWS c = false) :
    (collapseNL l).head? = l.head? := by
  cases l with
  | nil => simp only [collapseNL]
  | cons c cs =>
    rw [collapseNL_cons_neg c cs (h c rfl)]
    rfl

theorem mem_collapseST :
    ∀ (m : Nat) (l : List Char), l.length ≤ m →
      ∀ a ∈ collapseST l, a = ' ' ∨ a ∈ l := by
  intro m
  induction m with
  | zero =>
    intro l hl a ha
    have hnil : l = [] := List.eq_nil_of_length_eq_zero (Nat.le_zero.1 hl)
    subst hnil
    simp only [collapseST] at ha
    cases ha
  | succ m ih =>
    intro l hl a ha
    cases l with
    | nil =>
      simp only [collapseST] at ha
      cases ha
    | cons c cs =>
      by_cases hST : isST c = true
      · simp only [collapseST, hST, if_true] at ha
        rcases List.mem_cons.1 ha with ha | ha
        · exact Or.inl ha
        · rcases ih (cs.dropWhile isST)
            (le_trans (List.dropWhile_sublist isST).length_le (by
              simpa using hl)) a ha with h | h
          · exact Or.inl h
          · exact Or.inr (List.mem_cons.2 (Or.inr
              ((List.dropWhile_sublist isST).mem h)))
      · rw [collapseST_cons_neg c cs (by simpa using hST)] at ha
        rcases List.mem_cons.1 ha with ha | ha
        · exact Or.inr (by simp [ha])
        · rcases ih cs (by simpa using hl) a ha with h | h
          · exact Or.inl h
          · exact Or.inr (by simp [h])

theorem mem_collapseNL :
    ∀ (m : Nat) (l : List Char), l.length ≤ m →
      ∀ a ∈ collapseNL l, a = '\n' ∨ a ∈ l := by
  intro m
  induction m with
  | zero =>
    intro l hl a ha
    have hnil : l = [] := List.eq_nil_of_length_eq_zero (Nat.le_zero.1 hl)
    subst hnil
    simp only [collapseNL] at ha
    cases ha
  | succ m ih =>
    intro l hl a ha
    cases l with
    | nil =>
      simp only [collapseNL] at ha
      cases ha
    | cons c cs =>
      by_cases hWS : isWS c = true
      · simp only [collapseNL, hWS, if_true] at ha
        rcases List.mem_append.1 ha with ha | ha
        · by_cases hnl : ((c :: cs.takeWhile isWS).contains '\n') = true
          · rw [if_pos hnl] at ha
            exact Or.inl (List.mem_singleton.1 ha)
          · rw [if_neg hnl] at ha
            rcases List.mem_cons.1 ha with ha | ha
            · exact Or.inr (by simp [ha])
            · exact Or.inr (List.mem_cons.2 (Or.inr
                ((List.takeWhile_sublist isWS).mem ha)))
        · rcases ih (cs.dropWhile isWS)
            (le_trans (List.dropWhile_sublist isWS).length_le (by
              simpa using hl)) a ha with h | h
          · exact Or.inl h
          · exact Or.inr (List.mem_cons.2 (Or.inr
              ((List.dropWhile_sublist isWS).mem h)))
      · rw [collapseNL_cons_neg c cs (by simpa using hWS)] at ha
        rcases List.mem_cons.1 ha with ha | ha
        · exact Or.inr (by simp [ha])
        · rcases ih cs (by simpa using hl) a ha with h | h
          · exact Or.inl h
          · exact Or.inr (by simp [h])

theorem trimEnd_isPre (l : List Char) : trimEnd l <+: l := by
  unfold trimEnd
  rw [← List.reverse_reverse l]
  rw [ List.reverse_prefix]
  rw [List.reverse_reverse]
  exact List.dropWhile_suffix isWS

theorem trimWS_isInfix (l : List Char) : trimWS l <:+: l := by
  unfold trimWS
  exact (trimEnd_isPre _).isInfix.trans (List.dropWhile_suffix isWS).isInfix

theorem mem_trimWS (l : List Char) (a : Char) (h : a ∈ trimWS l) : a ∈ l :=
  (trimWS_isInfix l).sublist.mem h

theorem tab_notMem_collapseST :
    ∀ (m : Nat) (l : List Char), l.length ≤ m → ('\t' : Char) ∉ collapseST l := by
  intro m
  induction m with
  | zero =>
    intro l hl ha
    have hnil : l = [] := List.eq_nil_of_length_eq_zero (Nat.le_zero.1 hl)
    subst hnil
    simp only [collapseST] at ha
    cases ha
  | succ m ih =>
    intro l hl ha
    cases l with
    | nil =>
      simp only [collapseST] at ha
      cases ha
    | cons c cs =>
      by_cases hST : isST c = true
      · simp only [collapseST, hST, if_true] at ha
        rcases List.mem_cons.1 ha with ha | ha
        · exact absurd ha (by decide)
        · exact ih (cs.dropWhile isST)
            (le_trans (List.dropWhile_sublist isST).length_le (by
              simpa using hl)) ha
      · rw [collapseST_cons_neg c cs (by simpa using hST)] at ha
        rcases List.mem_cons.1 ha with ha | ha
        · exact hST (by rw [← ha]; decide)
        · exact ih cs (by simpa using hl) ha

theorem contains_nl_iff (m : List Char) :
    m.contains '\n' = true ↔ ('\n' : Char) ∈ m := by
  rw [List.contains_eq_any_beq]
  simp

theorem chain_noSTST_collapseST :
    ∀ (m : Nat) (l : List Char), l.length ≤ m →
      (collapseST l).Chain' fun a b => ¬(isST a = true ∧ isST b = true) := by
  intro m
  induction m with
  | zero =>
    intro l hl
    have hnil : l = [] := List.eq_nil_of_length_eq_zero (Nat.le_zero.1 hl)
    subst hnil
    simp only [collapseST]
    simp
  | succ m ih =>
    intro l hl
    cases l with
    | nil =>
      simp only [collapseST]
      simp
    | cons c cs =>
      by_cases hST : isST c = true
      · simp only [collapseST, hST, if_true]
        cases hrest : cs.dropWhile isST with
        | nil =>
          simp only [collapseST]
          simp
        | cons r rs =>
          have hr : isST r = false :=
            head_dropWhile_false isST cs r (by rw [hrest]; rfl)
          rw [collapseST_cons_neg r rs hr, List.chain'_cons]
          constructor
          · intro h
            rw [hr] at h
            exact absurd h.2 (by simp)
          · rw [← collapseST_cons_neg r rs hr]
            apply ih (r :: rs)
            rw [← hrest]
            exact le_trans (List.dropWhile_sublist isST).length_le
              (by simpa using hl)
      · rw [collapseST_cons_neg c cs (by simpa using hST)]
        rw [List.chain'_cons']
        refine ⟨?_, ih cs (by simpa using hl)⟩
        intro y _ h
        exact hST h.1

theorem nl_not_in_ws_run :
    ∀ (cs : List Char) (c : Char), (c :: cs).Chain' okPair →
      isWS c = true → c ≠ '\n' →
      ('\n' : Char) ∉ c :: cs.takeWhile isWS := by
  intro cs
  induction cs with
  | nil =>
    intro c _ _ hcn h
    simp at h
    exact hcn h.symm
  | cons d cs' ih =>
    intro c hch hws hcn h
    rw [List.takeWhile_cons] at h
    have hcd := (List.chain'_cons.1 hch).1
    have htail := (List.chain'_cons.1 hch).2
    by_cases hd : isWS d = true
    · rw [if_pos hd] at h
      rcases List.mem_cons.1 h with h | h
      · exact hcn h.symm
      · have hdn : d ≠ '\n' := fun hde => hcd.2.2 ⟨hws, hde⟩
        exact ih d htail hd hdn h
    · rw [if_neg hd] at h
      simp at h
      exact hcn h.symm

theorem chain_okPair_of_noNL :
    ∀ (l : List Char),
      (l.Chain' fun a b => ¬(isST a = true ∧ isST b = true)) →
      (∀ x ∈ l, x ≠ '\n') → l.Chain' okPair := by
  intro l
  induction l with
  | nil =>
    intro _ _
    simp
  | cons a l' ih =>
    intro hch hmem
    rw [List.chain'_cons'] at hch ⊢
    refine ⟨?_, ih hch.2 fun x hx => hmem x (by simp [hx])⟩
    intro y hy
    refine ⟨hch.1 y hy, ?_, ?_⟩
    · intro h
      exact hmem a (by simp) h.1
    · intro h
      exact hmem y (by simp [List.mem_of_mem_head? hy]) h.2

theorem chain_okPair_collapseNL :
    ∀ (m : Nat) (l : List Char), l.length ≤ m →
      (l.Chain' fun a b => ¬(isST a = true ∧ isST b = true)) →
      (collapseNL l).Chain' okPair := by
  intro m
  induction m with
  | zero =>
    intro l hl _
    have hnil : l = [] := List.eq_nil_of_length_eq_zero (Nat.le_zero.1 hl)
    subst hnil
    simp only [collapseNL]
    simp
  | succ m ih =>
    intro l hl hch
    cases l with
    | nil =>
      simp only [collapseNL]
      simp
    | cons c cs =>
      by_cases hWS : isWS c = true
      · simp only [collapseNL, hWS, if_true]
        have hchain_r : ((cs.dropWhile isWS).Chain' fun a b =>
            ¬(isST a = true ∧ isST b = true)) :=
          hch.suffix ((List.dropWhile_suffix isWS).trans (List.suffix_cons c cs))
        have hhead_r : ∀ y, (cs.dropWhile isWS).head? = some y →
            isWS y = false := fun y hy => head_dropWhile_false isWS cs y hy
        have hlen_r : (cs.dropWhile isWS).length ≤ m :=
          le_trans (List.dropWhile_sublist isWS).length_le (by simpa using hl)
        by_cases hnl : ((c :: cs.takeWhile isWS).contains '\n') = true
        · rw [if_pos hnl, List.singleton_append, List.chain'_cons']
          constructor
          · intro y hy
            rw [head?_collapseNL _ hhead_r] at hy
            have hyws : isWS y = false := hhead_r y hy
            refine ⟨?_, ?_, ?_⟩
            · intro h
              exact absurd h.1 (by decide)
            · intro h
              rw [h.2] at hyws
              cases hyws
            · intro h
              rw [h.2] at hyws
              exact absurd hyws (by decide)
          · exact ih (cs.dropWhile isWS) hlen_r hchain_r
        · rw [if_neg hnl]
          have hnotin : ('\n' : Char) ∉ c :: cs.takeWhile isWS :=
            fun h => hnl ((contains_nl_iff _).2 h)
          have hpre : (c :: cs.takeWhile isWS) <+: (c :: cs) :=
            ⟨cs.dropWhile isWS,
             by rw [List.cons_append, List.takeWhile_append_dropWhile]⟩
          rw [List.chain'_append]
          refine ⟨?_, ih (cs.dropWhile isWS) hlen_r hchain_r, ?_⟩
          · exact chain_okPair_of_noNL _ ( List.Chain'.prefix hch hpre)
              fun x hx hxe => hnotin (hxe ▸ hx)
          · intro x hx y hy
            rw [head?_collapseNL _ hhead_r] at hy
            have hyws : isWS y = false := hhead_r y hy
            have hxnl : x ≠ '\n' :=
              fun hxe => hnotin (hxe ▸ List.mem_of_mem_getLast? hx)
            refine ⟨?_, ?_, ?_⟩
            · intro h
              exact absurd (isST_isWS y h.2) (by simp [hyws])
            · intro h
              exact hxnl h.1
            · intro h
              rw [h.2] at hyws
              exact absurd hyws (by decide)
      · rw [collapseNL_cons_neg c cs (by simpa using hWS)]
        rw [List.chain'_cons']
        refine ⟨?_, ih cs (by simpa using hl) hch.tail⟩
        intro y _
        refine ⟨?_, ?_, ?_⟩
        · intro h
          exact hWS (isST_isWS c h.1)
        · intro h
          rw [h.1] at hWS
          exact hWS (by decide)
        · intro h
          exact hWS h.1

theorem head_trimWS (l : List Char) :
    ∀ c, (trimWS l).head? = some c → isWS c = false := by
  intro c hc
  obtain ⟨t, ht⟩ := trimEnd_isPre (l.dropWhile isWS)
  have hm : (l.dropWhile isWS).head? = some c := by
    rw [← ht, List.head?_append]
    unfold trimWS at hc
    rw [hc]
    rfl
  exact head_dropWhile_false isWS l c hm

theorem last_trimWS (l : List Char) :
    ∀ c, (trimWS l).getLast? = some c → isWS c = false := by
  intro c hc
  unfold trimWS trimEnd at hc
  rw [List.getLast?_reverse] at hc
  exact head_dropWhile_false isWS (l.dropWhile isWS).reverse c hc

/-- A normalization pass always produces a normal form. -/
theorem NF_normCore (l : List Char) : NF (normCore l) := by
  refine ⟨?_, ?_, head_trimWS _, last_trimWS _⟩
  · intro c hc
    have hc2 : c ∈ collapseNL (collapseST (stripZW (lowerAll (nbspToSpace l)))) :=
      mem_trimWS _ _ hc
    rcases mem_collapseNL _ _ le_rfl c hc2 with rfl | hcs
    · exact ⟨by decide, by decide, by decide, by decide⟩
    · have htab : c ≠ '\t' :=
        fun he => tab_notMem_collapseST _ _ le_rfl (he ▸ hcs)
      rcases mem_collapseST _ _ le_rfl c hcs with rfl | hw
      · exact ⟨by decide, by decide, by decide, by decide⟩
      · obtain ⟨hmem2, hzw⟩ := mem_stripZW _ _ hw
        obtain ⟨x, hx, rfl⟩ := mem_lowerAll _ _ hmem2
        exact ⟨toLowerJS_idem x,
          toLowerJS_ne_nbsp x (mem_nbspToSpace l x hx), hzw, htab⟩
  · exact List.Chain'.infix
      (chain_okPair_collapseNL _ _ le_rfl
        (chain_noSTST_collapseST _ _ le_rfl)) (trimWS_isInfix _)

theorem nbspToSpace_id (l : List Char) (h : ∀ c ∈ l, c ≠ nbsp) :
    nbspToSpace l = l := by
  unfold nbspToSpace
  induction l with
  | nil => rfl
  | cons c cs ih =>
    rw [List.map_cons, if_neg (h c (by simp)),
      ih fun x hx => h x (by simp [hx])]

theorem lowerAll_id (l : List Char) (h : ∀ c ∈ l, toLowerJS c = c) :
    lowerAll l = l := by
  unfold lowerAll
  induction l with
  | nil => rfl
  | cons c cs ih =>
    rw [List.map_cons, h c (by simp), ih fun x hx => h x (by simp [hx])]

theorem stripZW_id (l : List Char) (h : ∀ c ∈ l, isZW c = false) :
    stripZW l = l :=
  List.filter_eq_self.2 fun a ha => by simp [h a ha]

theorem collapseST_id (l : List Char) (htab : ∀ c ∈ l, c ≠ '\t')
    (hch : l.Chain' okPair) : collapseST l = l := by
  induction l with
  | nil => simp only [collapseST]
  | cons c cs ih =>
    by_cases hST : isST c = true
    · have hcsp : c = ' ' := by
        rcases isST_cases c hST with h | h
        · exact h
        · exact absurd h (htab c (by simp))
      have hdrop : cs.dropWhile isST = cs := by
        cases cs with
        | nil => rfl
        | cons d cs' =>
          have hpair := (List.chain'_cons'.1 hch).1 d rfl
          have hd : isST d = false := by
            by_contra hd'
            exact hpair.1 ⟨hST, by simpa using hd'⟩
          rw [List.dropWhile_cons, hd]
          simp
      simp only [collapseST, hST, if_true, hdrop]
      rw [hcsp, ih (fun x hx => htab x (by simp [hx])) hch.tail]
    · rw [collapseST_cons_neg c cs (by simpa using hST),
        ih (fun x hx => htab x (by simp [hx])) hch.tail]

theorem collapseNL_id :
    ∀ (m : Nat) (l : List Char), l.length ≤ m → l.Chain' okPair →
      collapseNL l = l := by
  intro m
  induction m with
  | zero =>
    intro l hl _
    have hnil : l = [] := List.eq_nil_of_length_eq_zero (Nat.le_zero.1 hl)
    subst hnil
    simp only [collapseNL]
  | succ m ih =>
    intro l hl hch
    cases l with
    | nil => simp only [collapseNL]
    | cons c cs =>
      by_cases hWS : isWS c = true
      · by_cases hcn : c = '\n'
        · subst hcn
          cases cs with
          | nil => simp [collapseNL, isWS]
          | cons d cs' =>
            have hpair := (List.chain'_cons'.1 hch).1 d rfl
            have hd : isWS d = false := by
              by_contra hd'
              exact hpair.2.1 ⟨rfl, by simpa using hd'⟩
            have htw : List.takeWhile isWS (d :: cs') = [] := by
              rw [List.takeWhile_cons, hd]
              simp
            have hdw : List.dropWhile isWS (d :: cs') = d :: cs' := by
              rw [List.dropWhile_cons, hd]
              simp
            rw [collapseNL, if_pos hWS, htw, hdw,
              if_pos (by decide : (['\n'] : List Char).contains '\n' = true),
              List.singleton_append,
              ih (d :: cs') (by simpa using hl) hch.tail]
        · have hnotin := nl_not_in_ws_run cs c hch hWS hcn
          have hnl : (c :: cs.takeWhile isWS).contains '\n' = false := by
            rw [← Bool.not_eq_true, contains_nl_iff]
            exact hnotin
          have hstep : collapseNL (c :: cs) =
              (c :: cs.takeWhile isWS) ++ collapseNL (cs.dropWhile isWS) := by
            simp only [collapseNL, hWS, if_true, hnl]
            simp
          rw [hstep,
            ih (cs.dropWhile isWS)
              (le_trans (List.dropWhile_sublist isWS).length_le
                (by simpa using hl))
              (hch.suffix ((List.dropWhile_suffix isWS).trans
                (List.suffix_cons c cs))),
            List.cons_append, List.takeWhile_append_dropWhile]
      · rw [collapseNL_cons_neg c cs (by simpa using hWS),
          ih cs (by simpa using hl) hch.tail]

theorem dropWhile_id_of_head (l : List Char)
    (h : ∀ c, l.head? = some c → isWS c = false) : l.dropWhile isWS = l := by
  cases l with
  | nil => rfl
  | cons c cs =>
    rw [List.dropWhile_cons, h c rfl]
    simp

theorem trimWS_id (l : List Char)
    (hh : ∀ c, l.head? = some c → isWS c = false)
    (hl : ∀ c, l.getLast? = some c → isWS c = false) : trimWS l = l := by
  unfold trimWS trimEnd
  rw [dropWhile_id_of_head l hh,
    dropWhile_id_of_head l.reverse
      (fun c hc => hl c (by rwa [List.head?_reverse] at hc)),
    List.reverse_reverse]

/-- A normal form is a fixed point of the whole pipeline. -/
theorem normCore_id_of_NF (l : List Char) (h : NF l) : normCore l = l := by
  obtain ⟨hchar, hchain, hhead, hlast⟩ := h
  unfold normCore
  rw [nbspToSpace_id l fun c hc => (hchar c hc).2.1,
    lowerAll_id l fun c hc => (hchar c hc).1,
    stripZW_id l fun c hc => (hchar c hc).2.2.1,
    collapseST_id l (fun c hc => (hchar c hc).2.2.2) hchain,
    collapseNL_id l.length l le_rfl hchain,
    trimWS_id l hhead hlast]

/-- **C7.** Text normalization is idempotent: normalizing an already
normalized string returns it unchanged, for every string. -/
theorem normalizeText_idem (l : List Char) :
    normalizeText (some (normalizeText (some l))) = normalizeText (some l) :=
  normCore_id_of_NF _ (NF_normCore l)

end VkBoardClean
